import Mathlib

/-!
Verification development for the ZombieBox code-cache source provider
(`SourceProviderCodeCache`).  The JavaScript class is shallowly embedded:

* JSON-like runtime values become the inductive type `Value`;
* the generated-code output directory becomes a flat map from
  root-relative component paths to file contents (`FS`), together with a
  flag recording whether the output root exists and the written-file
  registry (`State`);
* the template renderer is external, so rendered files are represented by
  an opaque `Content.tpl templateName context` constructor (the renderer
  is a function, hence equal template name and context give byte-identical
  output);
* node's `path.join` / `path.relative` are modelled on component lists
  (`joinPath`, `pathRelative`) for the inputs this class produces
  (absolute resolved paths, segments free of `.` / `..` / empty parts).
-/

/-- JSON-like JavaScript runtime values, as consumed by `generateDefines`.
`vfun` carries the function's source text (`value.toString()`). -/

inductive Value where
  | vundefined
  | vnull
  | vbool (b : Bool)
  | vnum (n : Int)
  | vstr (s : String)
  | vfun (src : String)
  | varr (elems : List Value)
  | vobj (fields : List (String × Value))

/-- Embedding of the JavaScript `typeof` operator on `Value`
(note `typeof null === "object"`). -/

def jsTypeof : Value → String
  | .vundefined => "undefined"
  | .vnull => "object"
  | .vbool _ => "boolean"
  | .vnum _ => "number"
  | .vstr _ => "string"
  | .vfun _ => "function"
  | .varr _ => "object"
  | .vobj _ => "object"

/-- Embedding of `Array.from(new Set(l))`: JavaScript `Set` iteration
order is insertion order, so this keeps the first occurrence of each
element. -/

def dedupFirst {α : Type} [DecidableEq α] (l : List α) : List α :=
  l.foldl (fun acc a => if a ∈ acc then acc else acc ++ [a]) []

mutual
/-- Embedding of `getGCCType` (src/unnamed/part_000, lines 186-206).
The array branch inlines the body of `getArrayContentsType`
(lines 172-180) so that the mutual recursion is structural; the helper
`getArrayContentsType` is defined separately below and agrees with this
branch definitionally. -/
def getGCCType (value : Value) : String :=
  let jsType := jsTypeof value
  if jsType = "function" then "Function"
  else if jsType ≠ "object" then jsType
  else match value with
    | .vnull => "null"
    | .varr l =>
        "Array<" ++ (if l.isEmpty then "*"
          else String.intercalate "|" (dedupFirst (getGCCTypeList l))) ++ ">"
    | _ => "Object"

/-- Embedding of `array.map((element) => getGCCType(element))`. -/
def getGCCTypeList : List Value → List String
  | [] => []
  | v :: t => getGCCType v :: getGCCTypeList t
end

/-- Embedding of `getArrayContentsType` (src/unnamed/part_000,
lines 172-180): `'*'` for an empty array, otherwise the pipe-join of the
de-duplicated element type list. -/

def getArrayContentsType (array : List Value) : String :=
  if array.isEmpty then "*"
  else String.intercalate "|" (dedupFirst (getGCCTypeList array))

def printTypeTag (type : String) : String :=
  if type = "Object" then "@struct" else "@const \x7b" ++ type ++ "\x7d"

/-- Embedding of `printJsdoc` (lines 220-225): the tag lines wrapped in a
JSDoc block followed by a trailing newline. -/

def printJsdoc (tags : List String) : String :=
  String.intercalate "\n" (["/**"] ++ tags.map (fun tag => " * " ++ tag) ++ [" */", ""])

/-- Embedding of JavaScript `string.split('\n')`, written on the
character list so that it evaluates by reduction. -/

def splitNewlines (s : String) : List String :=
  (s.data.foldr
    (fun c acc =>
      match acc with
      | [] => [[c]]
      | cur :: rest => if c = '\n' then [] :: cur :: rest else (c :: cur) :: rest)
    [[]]).map String.mk

/-- Embedding of `indent` (lines 231-232): prefix every line with a tab. -/

def indent (string : String) : String :=
  "\t" ++ String.intercalate "\n\t" (splitNewlines string)

/-- Embedding of the `JSON.stringify` escaping of one character inside a
string literal (the claims only exercise quote, backslash and the common
control characters; other characters are emitted verbatim). -/

def jsonEscapeChar (c : Char) : String :=
  if c = '"' then "\\\""
  else if c = '\\' then "\\\\"
  else if c = '\n' then "\\n"
  else if c = '\r' then "\\r"
  else if c = '\t' then "\\t"
  else String.singleton c

/-- Quoted, escaped JSON string literal. -/

def jsonQuote (s : String) : String :=
  "\"" ++ String.join (s.data.map jsonEscapeChar) ++ "\""

mutual
/-- Embedding of `JSON.stringify`: `none` models the JavaScript result
`undefined` (functions and `undefined` are not serializable at top
level; inside arrays they serialize as `null`, and object members with
unserializable values are dropped). -/
def jsonStringify : Value → Option String
  | .vundefined => none
  | .vfun _ => none
  | .vnull => some "null"
  | .vbool b => some (if b then "true" else "false")
  | .vnum n => some (toString n)
  | .vstr s => some (jsonQuote s)
  | .varr l => some ("[" ++ String.intercalate "," (jsonStringifyElems l) ++ "]")
  | .vobj kvs => some ("\x7b" ++ String.intercalate "," (jsonStringifyFields kvs) ++ "\x7d")

/-- Array elements of `JSON.stringify`; unserializable elements print as
`null`. -/
def jsonStringifyElems : List Value → List String
  | [] => []
  | v :: t => ((jsonStringify v).getD "null") :: jsonStringifyElems t

/-- Object members of `JSON.stringify`; members whose value does not
serialize are skipped. -/
def jsonStringifyFields : List (String × Value) → List String
  | [] => []
  | (k, v) :: t =>
      match jsonStringify v with
      | some s => (jsonQuote k ++ ":" ++ s) :: jsonStringifyFields t
      | none => jsonStringifyFields t
end

/-- Embedding of `value.toString()` as used by `printValue` for the
`number` and `Function` cases (a `Function` toString is its source
text).  Other constructors are unreachable there because the dispatch
string is the value's own inferred type. -/

def jsToString : Value → String
  | .vnum n => toString n
  | .vfun src => src
  | _ => ""

mutual
/-- Embedding of `printValue` (lines 259-269).  The `Object` branch of
the source calls `printObject`; its body is inlined here so that the
mutual recursion is structural, and `printObject` below agrees with it
definitionally.  In the default branch the JavaScript expression
`JSON.stringify(value)` can evaluate to `undefined`, which the enclosing
template literal renders as the text `undefined`. -/
def printValue (type : String) (value : Value) : String :=
  if type = "Object" then
    match value with
    | .vobj fields =>
        String.intercalate "\n"
          ["\x7b", indent (String.intercalate ",\n\n" (printMembers fields)), "\x7d"]
    | _ => ""
  else if type = "number" ∨ type = "Function" then jsToString value
  else (jsonStringify value).getD "undefined"

/-- Embedding of the member rendering inside `printObject`
(lines 238-252): each member gets a JSDoc type tag followed by
`key: value`. -/
def printMembers : List (String × Value) → List String
  | [] => []
  | (key, value) :: t =>
      (printJsdoc [printTypeTag (getGCCType value)] ++
        key ++ ": " ++ printValue (getGCCType value) value) :: printMembers t
end

/-- Embedding of `printObject` (lines 238-252). -/

def printObject (fields : List (String × Value)) : String :=
  String.intercalate "\n"
    ["\x7b", indent (String.intercalate ",\n\n" (printMembers fields)), "\x7d"]

def definesContent (define : List (String × Value)) : String :=
  String.intercalate "\n\n"
    (define.map (fun kv =>
      let type := getGCCType kv.2
      printJsdoc [printTypeTag type] ++
        "export const " ++ kv.1 ++ " = " ++ printValue type kv.2 ++ ";"))

/-- Template contexts passed to `templateHelper.render` by this class:
the platform list for `base-application.js.tpl`, the entry path for
`app.js.tpl`, and the package descriptor (kept opaque as its JSON text)
for `package-info.js.tpl`. -/

inductive TplCtx where
  | platformsCtx (platforms : List String)
  | pathCtx (path : String)
  | packageCtx (pkg : String)
deriving DecidableEq

/-- Contents of a generated file.  Template-rendered files keep the
template name and its context (`templateHelper.render` is an external
pure function, so equal name and context mean byte-identical output);
directly generated files carry their text. -/

inductive Content where
  | tpl (name : String) (ctx : TplCtx)
  | str (s : String)
deriving DecidableEq

/-- Keys of the flat directory model: a generated file is addressed by
its path components relative to the resolved output root (`this._root`).
A top-level file has a single component; a file inside a generated
directory has that directory's name as its head component. -/

abbrev FsPath := List String

/-- Flat model of the output directory: an association list from
root-relative component paths to file contents.  Directories exist
implicitly as common prefixes of keys. -/

abbrev FS := List (FsPath × Content)

/-- State owned by `SourceProviderCodeCache`: whether the resolved output
root currently exists on disk, the files under it, and the written-file
registry `this._files`.  Event emission (`EVENT_CHANGED` / `EVENT_ANY`)
has no observer in the claims under study and is not modelled. -/

structure State where
  rootExists : Bool
  fs : FS
  files : List FsPath
deriving DecidableEq

/-- Top-level hidden-entry test of `clean` (line 86):
`filename.charAt(0) === '.'` on the path's top-level component.  The
empty path (the root itself) is never a child of the root, hence never
removed. -/

def topHidden : FsPath → Bool
  | [] => true
  | c :: _ => c.take 1 = "."

/-- Look up the content stored at a path (first binding wins; `setFS`
keeps at most one binding per path). -/

def lookupFS (p : FsPath) : FS → Option Content
  | [] => none
  | kc :: t => if kc.1 = p then some kc.2 else lookupFS p t

/-- Store a content at a path (create-or-overwrite, as
`fs.writeFileSync` does). -/

def setFS (p : FsPath) (c : Content) : FS → FS
  | [] => [(p, c)]
  | kc :: t => if kc.1 = p then (p, c) :: t else kc :: setFS p c t

/-- Embedding of `_writeFile` (lines 328-343): ensure the directory
chain exists (hence the root exists afterwards), create or overwrite the
file, and append the path to the registry unless it is already present. -/

def _writeFile (src : FsPath) (content : Content) (s : State) : State :=
  { rootExists := true
    fs := setFS src content s.fs
    files := if src ∈ s.files then s.files else s.files ++ [src] }

/-- Embedding of `_writeSources` (lines 316-321): write every mapping
entry in key order.  Entry contents are plain text. -/

def _writeSources (sources : List (FsPath × String)) (s : State) : State :=
  sources.foldl (fun st kc => _writeFile kc.1 (.str kc.2) st) s

/-- Embedding of `clean` (lines 79-100): a no-op when the resolved root
does not exist; otherwise every top-level entry whose name is not hidden
is deleted (files unlinked, directories removed recursively — in the
flat model, every key under that top-level name disappears) and the
registry is reset.  Note the early return skips the registry reset. -/

def clean (s : State) : State :=
  if s.rootExists then
    { s with fs := s.fs.filter (fun kc => topHidden kc.1), files := [] }
  else s

/-- Model of node `path.relative` for already-resolved absolute paths
given as component lists: drop the common prefix, then climb with `..`
for what remains of the source and descend into what remains of the
target. -/

def pathRelative : List String → List String → List String
  | [], to2 => to2
  | f :: fs, [] => (f :: fs).map (fun _ => "..")
  | f :: fs, t :: ts =>
      if f = t then pathRelative fs ts
      else (f :: fs).map (fun _ => "..") ++ (t :: ts)

/-- Model of node `path.join` on component lists whose segments contain
no `.` / `..` / empty parts (the only joins this class performs on such
segments), rendered with the `/` separator. -/

def joinPath : List String → String
  | [] => ""
  | [a] => a
  | a :: b :: rest => a ++ "/" ++ joinPath (b :: rest)

/-- Embedding of `mainPath.replace(/\.js$/, '')` (line 142): remove a
trailing `.js` when present. -/

def stripJsSuffix (s : String) : String :=
  if s.data.reverse.take 3 = ['s', 'j', '.'] then
    String.mk ((s.data.reverse.drop 3).reverse)
  else s

/-- Build configuration fields used by this class.  `resolvedSrc` and
`resolvedEntry` are the component lists of
`pathHelper.resolveAbsolutePath(project.src)` and
`...(project.entry)` (path resolution is an external collaborator and is
consumed already resolved); `define` is the `define` mapping in object
key order. -/

structure Config where
  projectName : String
  resolvedSrc : List String
  resolvedEntry : List String
  define : List (String × Value)

/-- An extension as consumed here: its name and its
`generateCode(buildConfig)` result, a mapping of relative component
paths (in object key order) to file text. -/

structure Extension where
  name : String
  generateCode : Config → List (FsPath × String)

/-- Embedding of the platform reordering of `generateBaseApp`
(lines 118-122): when `pc` is present, splice out its first occurrence
and push it to the end. -/

def movePcToEnd (platformNames : List String) : List String :=
  if platformNames.contains "pc" then
    platformNames.eraseIdx (platformNames.findIdx (fun name => name == "pc")) ++ ["pc"]
  else platformNames

/-- Embedding of the `path` template argument of `app.js.tpl`
(lines 131-143): the project name joined with the entry path relative to
the source root, with a trailing `.js` stripped. -/

def appEntryPath (cfg : Config) : String :=
  stripJsSuffix
    (joinPath (cfg.projectName :: pathRelative cfg.resolvedSrc cfg.resolvedEntry))

/-- Embedding of `generateBaseApp` (lines 114-153): write the bootstrap
platform list, the app entry file and the package metadata file. -/

def generateBaseApp (platformNames : List String) (cfg : Config) (packageJson : String)
    (s : State) : State :=
  _writeFile ["package-info.js"] (.tpl "package-info.js.tpl" (.packageCtx packageJson))
    (_writeFile ["app.js"] (.tpl "app.js.tpl" (.pathCtx (appEntryPath cfg)))
      (_writeFile ["base-application.js"]
        (.tpl "base-application.js.tpl" (.platformsCtx (movePcToEnd platformNames))) s))

/-- Embedding of `_resolveAddonRelativeSources` (lines 304-310): prefix
every relative path with the addon's name. -/

def _resolveAddonRelativeSources (addon : Extension) (sources : List (FsPath × String)) :
    List (FsPath × String) :=
  sources.map (fun kc => (addon.name :: kc.1, kc.2))

/-- Embedding of `generateExtensionsCode` (lines 157-163): for every
extension, namespace and write its generated mapping. -/

def generateExtensionsCode (exts : List Extension) (cfg : Config) (s : State) : State :=
  exts.foldl
    (fun st e => _writeSources (_resolveAddonRelativeSources e (e.generateCode cfg)) st) s

/-- Embedding of `generateDefines` (lines 167-282): write `define.js`
with the emitted constants module. -/

def generateDefines (cfg : Config) (s : State) : State :=
  _writeFile ["define.js"] (.str (definesContent cfg.define)) s

/-- Embedding of `buildCode` (lines 105-110): clean, then the three
generation steps in order. -/

def buildCode (platformNames : List String) (cfg : Config) (packageJson : String)
    (exts : List Extension) (s : State) : State :=
  generateDefines cfg
    (generateExtensionsCode exts cfg
      (generateBaseApp platformNames cfg packageJson (clean s)))

/-- Embedding of the `EVENT_GENERATED` handler registered by
`_setupExtensions` (lines 288-296): namespace and write the freshly
supplied mapping, nothing else. -/

def extensionGeneratedHandler (extension : Extension) (sources : List (FsPath × String))
    (s : State) : State :=
  _writeSources (_resolveAddonRelativeSources extension sources) s

/-- Session operations on the provider after construction: the write
primitive and `clean` (the generation steps are sequences of these). -/

inductive Op where
  | write (p : FsPath) (c : Content)
  | clean

/-- Run a session: apply each operation in order. -/

def runOps (ops : List Op) (s : State) : State :=
  ops.foldl
    (fun st op =>
      match op with
      | .write p c => _writeFile p c st
      | .clean => clean st) s

/-- Modelled from the spec: the state at construction time.  The
registry field `this._files` is initialised by `SourceProviderBase`,
which is outside the sources under study; per the spec the registry is
"the set of absolute paths written since the last clean", hence empty at
construction.  The pre-existing output directory contents and whether
the root exists are arbitrary. -/

def initState (rootExists : Bool) (fs : FS) : State :=
  { rootExists := rootExists, fs := fs, files := [] }

/-- Modelled from the spec: the paths written since the most recent
`clean()` call, in order, duplicates included (a fold over the session:
writes append, `clean` resets). -/

def writtenSinceClean (ops : List Op) : List FsPath :=
  ops.foldl
    (fun acc op =>
      match op with
      | .write p _ => acc ++ [p]
      | .clean => []) []

/-- Modelled from the spec: "the set of distinct absolute paths written
since the most recent call to clean()", kept in first-write order. -/

def specRegistry (ops : List Op) : List FsPath :=
  dedupFirst (writtenSinceClean ops)

/-- Modelled from the spec: the sub-list of first occurrences of each
element, in order of first occurrence — the order the spec promises for
the union member tags of a heterogeneous array. -/

def firstOccurrences {α : Type} [DecidableEq α] : List α → List α
  | [] => []
  | a :: t => a :: firstOccurrences (t.filter (fun b => ¬ b = a))
termination_by l => l.length
decreasing_by
  simp only [List.length_cons]
  exact Nat.lt_succ_of_le (List.length_filter_le _ _)

/-- Modelled from the spec: claim C7's literal reading of the app entry
path — the entry module "expressed as a path relative to the project's
source root with any trailing source-file extension stripped", with no
project-name prefix. -/

def specEntryPath (cfg : Config) : String :=
  stripJsSuffix (joinPath (pathRelative cfg.resolvedSrc cfg.resolvedEntry))

/-- Last content written for a path by a source mapping (later entries
of the write list overwrite earlier ones). -/

def lastWrite (p : FsPath) (sources : List (FsPath × String)) : Option String :=
  sources.foldl (fun acc kc => if kc.1 = p then some kc.2 else acc) none

def sinceCleanFold (w : List FsPath) (ops : List Op) : List FsPath :=
  ops.foldl
    (fun acc op =>
      match op with
      | .write p _ => acc ++ [p]
      | .clean => []) w

def allExtSources (cfg : Config) (exts : List Extension) : List (FsPath × String) :=
  exts.foldl (fun acc e => acc ++ _resolveAddonRelativeSources e (e.generateCode cfg)) []

theorem getGCCTypeList_eq_map (l : List Value) :
    getGCCTypeList l = l.map getGCCType := by
  induction l with
  | nil => rfl
  | cons v t ih => simp [getGCCTypeList, ih]

theorem getGCCType_varr (l : List Value) :
    getGCCType (.varr l) = "Array<" ++ getArrayContentsType l ++ ">" := by
  cases l <;> rfl

/-- Embedding of `printTypeTag` (lines 212-214): `@struct` for objects,
otherwise a `@const` tag carrying the inferred type. -/

theorem printValue_object (fields : List (String × Value)) :
    printValue "Object" (.vobj fields) = printObject fields := rfl

/-- Embedding of the `content` computation of `generateDefines`
(lines 271-279): one exported, documented constant per top-level key of
the `define` mapping, separated by blank lines.  The mapping is a list of
key/value pairs in JavaScript object insertion order (`Object.keys`). -/

theorem lookupFS_setFS (q p : FsPath) (c : Content) (fs : FS) :
    lookupFS q (setFS p c fs) = if q = p then some c else lookupFS q fs := by
  induction fs with
  | nil =>
      by_cases h : q = p
      · simp [setFS, lookupFS, h]
      · have hne : ¬ p = q := fun hh => h hh.symm
        simp [setFS, lookupFS, h, hne]
  | cons kc t ih =>
      by_cases hp : kc.1 = p
      · by_cases h : q = p
        · simp [setFS, lookupFS, hp, h]
        · have hne : ¬ p = q := fun hh => h hh.symm
          have hkq : ¬ kc.1 = q := fun hh => h (by rw [← hh, hp])
          simp [setFS, lookupFS, hp, h, hne, hkq]
      · by_cases hkq : kc.1 = q
        · have hqp : ¬ q = p := fun hh => hp (by rw [hkq, hh])
          simp [setFS, lookupFS, hp, hkq, hqp]
        · simp [setFS, lookupFS, hp, hkq, ih]

theorem lookupFS_writeFile (q p : FsPath) (c : Content) (s : State) :
    lookupFS q (_writeFile p c s).fs = if q = p then some c else lookupFS q s.fs := by
  simp [_writeFile, lookupFS_setFS]

theorem lastWrite_foldl_init (p : FsPath) (l : List (FsPath × String))
    (init : Option String) :
    l.foldl (fun acc kc => if kc.1 = p then some kc.2 else acc) init =
      match lastWrite p l with
      | some c => some c
      | none => init := by
  induction l generalizing init with
  | nil => simp [lastWrite]
  | cons kc t ih =>
      by_cases h : kc.1 = p
      · simp only [lastWrite, List.foldl_cons, if_pos h]
        rw [ih (some kc.2)]
        cases hlw : lastWrite p t <;> simp [lastWrite] at hlw <;> simp [hlw]
      · simp only [lastWrite, List.foldl_cons, if_neg h]
        exact ih init

theorem lastWrite_cons (p : FsPath) (kc : FsPath × String) (t : List (FsPath × String)) :
    lastWrite p (kc :: t) =
      match lastWrite p t with
      | some c => some c
      | none => if kc.1 = p then some kc.2 else none := by
  simp only [lastWrite, List.foldl_cons]
  rw [lastWrite_foldl_init]
  rfl

theorem lookupFS_writeSources (q : FsPath) (l : List (FsPath × String)) (s : State) :
    lookupFS q (_writeSources l s).fs =
      match lastWrite q l with
      | some c => some (.str c)
      | none => lookupFS q s.fs := by
  induction l generalizing s with
  | nil => simp [_writeSources, lastWrite]
  | cons kc t ih =>
      simp only [_writeSources, List.foldl_cons] at *
      rw [ih, lastWrite_cons, lookupFS_writeFile]
      by_cases h : kc.1 = q
      · cases hlw : lastWrite q t <;> simp [h, hlw]
      · have hne : ¬ q = kc.1 := fun hh => h hh.symm
        cases hlw : lastWrite q t <;> simp [h, hne, hlw]

theorem mem_dedupFirst_foldl {α : Type} [DecidableEq α] (l : List α) (acc : List α)
    (x : α) :
    (x ∈ l.foldl (fun acc a => if a ∈ acc then acc else acc ++ [a]) acc) ↔
      x ∈ acc ∨ x ∈ l := by
  induction l generalizing acc with
  | nil => simp
  | cons a t ih =>
      by_cases h : a ∈ acc
      · simp only [List.foldl_cons, if_pos h, ih, List.mem_cons]
        constructor
        · rintro (hx | hx)
          · exact Or.inl hx
          · exact Or.inr (Or.inr hx)
        · rintro (hx | hx | hx)
          · exact Or.inl hx
          · exact Or.inl (hx ▸ h)
          · exact Or.inr hx
      · simp only [List.foldl_cons, if_neg h, ih, List.mem_append, List.mem_cons,
          List.mem_singleton]
        tauto

theorem mem_dedupFirst {α : Type} [DecidableEq α] (l : List α) (x : α) :
    x ∈ dedupFirst l ↔ x ∈ l := by
  simp [dedupFirst, mem_dedupFirst_foldl]

theorem nodup_dedupFirst_foldl {α : Type} [DecidableEq α] (l : List α) (acc : List α)
    (h : acc.Nodup) :
    (l.foldl (fun acc a => if a ∈ acc then acc else acc ++ [a]) acc).Nodup := by
  induction l generalizing acc with
  | nil => exact h
  | cons a t ih =>
      by_cases ha : a ∈ acc
      · simpa [List.foldl_cons, if_pos ha] using ih acc h
      · have h2 : (acc ++ [a]).Nodup := by simp [List.nodup_append, h, ha]
        simpa [List.foldl_cons, if_neg ha] using ih (acc ++ [a]) h2

theorem nodup_dedupFirst {α : Type} [DecidableEq α] (l : List α) :
    (dedupFirst l).Nodup :=
  nodup_dedupFirst_foldl l [] List.nodup_nil

theorem dedupFirst_append_single {α : Type} [DecidableEq α] (w : List α) (p : α) :
    dedupFirst (w ++ [p]) =
      if p ∈ dedupFirst w then dedupFirst w else dedupFirst w ++ [p] := by
  simp [dedupFirst, List.foldl_append]

/-- Generalisation of `writtenSinceClean` to an arbitrary starting
accumulator, used for the session induction. -/

theorem writtenSinceClean_eq (ops : List Op) :
    writtenSinceClean ops = sinceCleanFold [] ops := rfl

theorem runOps_files_aux (ops : List Op) (s : State) (w : List FsPath)
    (hfiles : s.files = dedupFirst w) (hroot : s.rootExists = false → w = []) :
    (runOps ops s).files = dedupFirst (sinceCleanFold w ops) ∧
      ((runOps ops s).rootExists = false → sinceCleanFold w ops = []) := by
  induction ops generalizing s w with
  | nil => exact ⟨hfiles, hroot⟩
  | cons op t ih =>
      cases op with
      | write p c =>
          have hstep : (_writeFile p c s).files = dedupFirst (w ++ [p]) := by
            rw [dedupFirst_append_single]
            simp only [_writeFile, hfiles]
            by_cases hp : p ∈ dedupFirst w <;> simp [hp]
          exact ih (_writeFile p c s) (w ++ [p]) hstep (fun hr => by simp [_writeFile] at hr)
      | clean =>
          by_cases hr : s.rootExists
          · have h1 : (clean s).files = dedupFirst [] := by simp [clean, hr, dedupFirst]
            have h2 : (clean s).rootExists = false → ([] : List FsPath) = [] := fun _ => rfl
            simpa [runOps, sinceCleanFold] using ih (clean s) [] h1 h2
          · have hs : clean s = s := by simp [clean, hr]
            have hw : w = [] := hroot (by simpa using hr)
            have h1 : (clean s).files = dedupFirst [] := by
              rw [hs, hfiles, hw]
            have h2 : (clean s).rootExists = false → ([] : List FsPath) = [] := fun _ => rfl
            simpa [runOps, sinceCleanFold] using ih (clean s) [] h1 h2

/-- All namespaced extension sources produced by one pass of
`generateExtensionsCode`, in write order. -/

theorem extSources_foldl_init (cfg : Config) (exts : List Extension)
    (acc : List (FsPath × String)) :
    exts.foldl (fun acc e => acc ++ _resolveAddonRelativeSources e (e.generateCode cfg)) acc =
      acc ++ allExtSources cfg exts := by
  induction exts generalizing acc with
  | nil => simp [allExtSources]
  | cons e t ih =>
      simp only [allExtSources, List.foldl_cons, List.nil_append] at *
      rw [ih, ih (_resolveAddonRelativeSources e (e.generateCode cfg)), List.append_assoc]

theorem writeSources_append (l1 l2 : List (FsPath × String)) (s : State) :
    _writeSources (l1 ++ l2) s = _writeSources l2 (_writeSources l1 s) := by
  simp [_writeSources, List.foldl_append]

theorem generateExtensionsCode_eq (exts : List Extension) (cfg : Config) (s : State) :
    generateExtensionsCode exts cfg s = _writeSources (allExtSources cfg exts) s := by
  induction exts generalizing s with
  | nil => simp [generateExtensionsCode, allExtSources, _writeSources]
  | cons e t ih =>
      simp only [generateExtensionsCode, List.foldl_cons] at *
      rw [ih]
      show _writeSources (allExtSources cfg t) _ =
        _writeSources (allExtSources cfg (e :: t)) s
      have : allExtSources cfg (e :: t) =
          _resolveAddonRelativeSources e (e.generateCode cfg) ++ allExtSources cfg t := by
        simp only [allExtSources, List.foldl_cons, List.nil_append]
        exact extSources_foldl_init cfg t _
      rw [this, writeSources_append]

theorem lookupFS_generateExtensionsCode (q : FsPath) (exts : List Extension)
    (cfg : Config) (s : State) :
    lookupFS q (generateExtensionsCode exts cfg s).fs =
      match lastWrite q (allExtSources cfg exts) with
      | some c => some (.str c)
      | none => lookupFS q s.fs := by
  rw [generateExtensionsCode_eq, lookupFS_writeSources]

theorem files_writeFile_monotone (p : FsPath) (c : Content) (s : State) :
    List.IsPrefix s.files (_writeFile p c s).files := by
  by_cases h : p ∈ s.files
  · simp [_writeFile, h]
  · simp only [_writeFile, if_neg h]
    exact ⟨[p], rfl⟩

theorem files_writeSources_monotone (l : List (FsPath × String)) (s : State) :
    List.IsPrefix s.files (_writeSources l s).files := by
  induction l generalizing s with
  | nil => exact List.prefix_refl _
  | cons kc t ih =>
      simp only [_writeSources, List.foldl_cons]
      exact (files_writeFile_monotone kc.1 (.str kc.2) s).trans (ih (_writeFile kc.1 (.str kc.2) s))

theorem eraseIdx_findIdx_count_one (l : List String) (h : l.count "pc" = 1) :
    l.eraseIdx (l.findIdx (fun name => name == "pc")) =
      l.filter (fun name => ¬ name = "pc") := by
  induction l with
  | nil => simp at h
  | cons a t ih =>
      by_cases ha : a = "pc"
      · subst ha
        have hzero : t.count "pc" = 0 := by
          have := h
          simp [List.count_cons] at this
          exact this
        have hnot : "pc" ∉ t := List.count_eq_zero.mp hzero
        have hfil : t.filter (fun name => ¬ name = "pc") = t := by
          refine List.filter_eq_self.mpr ?_
          intro b hb
          simp only [decide_eq_true_eq]
          intro hbp
          exact hnot (hbp ▸ hb)
        simp only [decide_not] at hfil
        simp [List.findIdx_cons, List.filter_cons, hfil]
      · have hcount : t.count "pc" = 1 := by
          have := h
          simpa [List.count_cons, ha] using this
        have hbeq : (a == "pc") = false := beq_eq_false_iff_ne.mpr ha
        have hfind : (a :: t).findIdx (fun name => name == "pc") =
            t.findIdx (fun name => name == "pc") + 1 := by
          simp [List.findIdx_cons, hbeq]
        rw [hfind, List.eraseIdx_cons_succ, List.filter_cons]
        simp only [ha, decide_not, decide_eq_true_eq]
        simp [ha, ih hcount]

theorem pathRelative_append (src rest : List String) :
    pathRelative src (src ++ rest) = rest := by
  induction src with
  | nil => cases rest <;> rfl
  | cons a t ih =>
      cases rest with
      | nil => simpa [pathRelative] using ih
      | cons b r => simpa [pathRelative] using ih

theorem joinPath_cons_ne_nil (a : String) (l : List String) (h : l ≠ []) :
    joinPath (a :: l) = a ++ "/" ++ joinPath l := by
  cases l with
  | nil => exact absurd rfl h
  | cons b t => rfl

theorem joinPath_append_suffix (xs : List String) (b suf : String) :
    joinPath (xs ++ [b ++ suf]) = joinPath (xs ++ [b]) ++ suf := by
  induction xs with
  | nil => rfl
  | cons a t ih =>
      rw [List.cons_append, List.cons_append,
        joinPath_cons_ne_nil a (t ++ [b ++ suf]) (by simp),
        joinPath_cons_ne_nil a (t ++ [b]) (by simp), ih]
      simp [String.append_assoc]

theorem stripJsSuffix_append (s : String) : stripJsSuffix (s ++ ".js") = s := by
  have hdata : (s ++ ".js").data = s.data ++ ['.', 'j', 's'] := by
    rw [String.data_append]
  have hrev : (s ++ ".js").data.reverse = ['s', 'j', '.'] ++ s.data.reverse := by
    rw [hdata, List.reverse_append]
    rfl
  have htake : (['s', 'j', '.'] ++ s.data.reverse).take 3 = ['s', 'j', '.'] := by
    simp
  have hdrop : (['s', 'j', '.'] ++ s.data.reverse).drop 3 = s.data.reverse := by
    simp
  simp only [stripJsSuffix, hrev, htake, hdrop, if_pos]
  rw [List.reverse_reverse]

theorem firstOccurrences_cons {α : Type} [DecidableEq α] (a : α) (t : List α) :
    firstOccurrences (a :: t) = a :: firstOccurrences (t.filter (fun b => ¬ b = a)) := by
  rw [firstOccurrences.eq_def]

theorem filter_not_mem_append_single {α : Type} [DecidableEq α] (u acc : List α) (a : α) :
    u.filter (fun b => ¬ b ∈ acc ++ [a]) =
      (u.filter (fun b => ¬ b ∈ acc)).filter (fun b => ¬ b = a) := by
  induction u with
  | nil => rfl
  | cons x u ih =>
      simp only [List.filter_cons, decide_eq_true_eq]
      by_cases hx1 : x ∈ acc
      · have hx3 : x ∈ acc ++ [a] := List.mem_append_left _ hx1
        rw [if_neg (not_not_intro hx3), if_neg (not_not_intro hx1)]
        exact ih
      · by_cases hx2 : x = a
        · have hx3 : x ∈ acc ++ [a] := by simp [hx2]
          rw [if_neg (not_not_intro hx3), if_pos hx1, List.filter_cons]
          simp only [decide_eq_true_eq]
          rw [if_neg (not_not_intro hx2)]
          exact ih
        · have hx3 : ¬ x ∈ acc ++ [a] := by simp [hx1, hx2]
          rw [if_pos hx3, if_pos hx1, List.filter_cons]
          simp only [decide_eq_true_eq]
          rw [if_pos hx2, ih]

theorem foldl_dedup_eq_firstOccurrences {α : Type} [DecidableEq α] (l : List α) :
    ∀ acc : List α,
      l.foldl (fun acc a => if a ∈ acc then acc else acc ++ [a]) acc =
        acc ++ firstOccurrences (l.filter (fun b => ¬ b ∈ acc)) := by
  induction l with
  | nil => intro acc; simp [firstOccurrences]
  | cons a t ih =>
      intro acc
      by_cases h : a ∈ acc
      · rw [List.foldl_cons, if_pos h, ih acc]
        congr 2
        simp [List.filter_cons, h]
      · rw [List.foldl_cons, if_neg h, ih (acc ++ [a]), filter_not_mem_append_single]
        have hkeep : (a :: t).filter (fun b => ¬ b ∈ acc) =
            a :: t.filter (fun b => ¬ b ∈ acc) := by
          simp [List.filter_cons, h]
        rw [hkeep, firstOccurrences_cons]
        simp [List.append_assoc]

theorem dedupFirst_eq_firstOccurrences {α : Type} [DecidableEq α] (l : List α) :
    dedupFirst l = firstOccurrences l := by
  have h := foldl_dedup_eq_firstOccurrences l []
  simpa [dedupFirst] using h

theorem lastWrite_isSome_mem (l : List (FsPath × String)) (p : FsPath)
    (h : (lastWrite p l).isSome = true) : ∃ c, (p, c) ∈ l := by
  induction l with
  | nil => simp [lastWrite] at h
  | cons kc t ih =>
      rw [lastWrite_cons] at h
      cases hlw : lastWrite p t with
      | some c =>
          obtain ⟨c2, hc2⟩ := ih (by simp [hlw])
          exact ⟨c2, List.mem_cons_of_mem _ hc2⟩
      | none =>
          rw [hlw] at h
          by_cases hk : kc.1 = p
          · refine ⟨kc.2, ?_⟩
            have : kc = (p, kc.2) := by
              rw [← hk]
            rw [← this]
            exact List.mem_cons_self _ _
          · simp [hk] at h

theorem lookupFS_buildCode_base (pn : List String) (cfg : Config) (pkg : String)
    (exts : List Extension) (s : State) :
    lookupFS ["base-application.js"] (buildCode pn cfg pkg exts s).fs =
      match lastWrite ["base-application.js"] (allExtSources cfg exts) with
      | some c => some (.str c)
      | none =>
          some (.tpl "base-application.js.tpl" (.platformsCtx (movePcToEnd pn))) := by
  simp only [buildCode, generateDefines]
  rw [lookupFS_writeFile, if_neg (by decide), lookupFS_generateExtensionsCode]
  simp only [generateBaseApp]
  rw [lookupFS_writeFile, if_neg (by decide), lookupFS_writeFile, if_neg (by decide),
    lookupFS_writeFile, if_pos rfl]

theorem lookupFS_buildCode_app (pn : List String) (cfg : Config) (pkg : String)
    (exts : List Extension) (s : State) :
    lookupFS ["app.js"] (buildCode pn cfg pkg exts s).fs =
      match lastWrite ["app.js"] (allExtSources cfg exts) with
      | some c => some (.str c)
      | none => some (.tpl "app.js.tpl" (.pathCtx (appEntryPath cfg))) := by
  simp only [buildCode, generateDefines]
  rw [lookupFS_writeFile, if_neg (by decide), lookupFS_generateExtensionsCode]
  simp only [generateBaseApp]
  rw [lookupFS_writeFile, if_neg (by decide), lookupFS_writeFile, if_pos rfl]

theorem lookupFS_buildCode_define (pn : List String) (cfg : Config) (pkg : String)
    (exts : List Extension) (s : State) :
    lookupFS ["define.js"] (buildCode pn cfg pkg exts s).fs =
      some (.str (definesContent cfg.define)) := by
  simp only [buildCode, generateDefines]
  rw [lookupFS_writeFile, if_pos rfl]

/-- C1: running `buildCode()` twice with the same build configuration,
package descriptor, platforms and extension outputs produces
byte-identical contents for the base-application, app-entry and define
files on the second run. -/

theorem buildCode_idempotent_outputs (pn : List String) (cfg : Config) (pkg : String)
    (exts : List Extension) (s : State) :
    lookupFS ["base-application.js"]
        (buildCode pn cfg pkg exts (buildCode pn cfg pkg exts s)).fs =
      lookupFS ["base-application.js"] (buildCode pn cfg pkg exts s).fs ∧
    lookupFS ["app.js"] (buildCode pn cfg pkg exts (buildCode pn cfg pkg exts s)).fs =
      lookupFS ["app.js"] (buildCode pn cfg pkg exts s).fs ∧
    lookupFS ["define.js"] (buildCode pn cfg pkg exts (buildCode pn cfg pkg exts s)).fs =
      lookupFS ["define.js"] (buildCode pn cfg pkg exts s).fs := by
  refine ⟨?_, ?_, ?_⟩
  · rw [lookupFS_buildCode_base, lookupFS_buildCode_base]
  · rw [lookupFS_buildCode_app, lookupFS_buildCode_app]
  · rw [lookupFS_buildCode_define, lookupFS_buildCode_define]

/-- C2: when the output root exists, `clean()` keeps exactly the entries
whose top-level name begins with the hidden-file marker and removes every
other top-level entry, files and directory subtrees alike. -/

theorem clean_removes_visible_entries (s : State) (h : s.rootExists = true)
    (pc : FsPath × Content) :
    pc ∈ (clean s).fs ↔ pc ∈ s.fs ∧ topHidden pc.1 = true := by
  simp [clean, h, List.mem_filter]

theorem clean_removes_visible_entries_witness :
    ((["main.js"], Content.str "a") ∈
        (clean (initState true
          [(["main.js"], Content.str "a"), ([".eslintrc"], Content.str "b"),
            (["gen", "x.js"], Content.str "c")])).fs ↔
      (["main.js"], Content.str "a") ∈
          ([(["main.js"], Content.str "a"), ([".eslintrc"], Content.str "b"),
            (["gen", "x.js"], Content.str "c")] : FS) ∧
        topHidden ["main.js"] = true) :=
  clean_removes_visible_entries
    (initState true
      [(["main.js"], Content.str "a"), ([".eslintrc"], Content.str "b"),
        (["gen", "x.js"], Content.str "c")]) rfl (["main.js"], Content.str "a")

/-- C3: at every reachable point of a session the written-file registry
is duplicate-free and equals the distinct paths written since the most
recent clean (in first-write order), and a `clean()` appended to any
session leaves the registry empty — also when the root does not exist,
because then nothing was written since the last clean. -/

theorem registry_invariant (ops : List Op) (b : Bool) (fs0 : FS) :
    (runOps ops (initState b fs0)).files = specRegistry ops ∧
    (runOps ops (initState b fs0)).files.Nodup ∧
    (runOps (ops ++ [Op.clean]) (initState b fs0)).files = [] := by
  have hmain := runOps_files_aux ops (initState b fs0) [] rfl (fun _ => rfl)
  refine ⟨?_, ?_, ?_⟩
  · rw [hmain.1]; rfl
  · rw [hmain.1]; exact nodup_dedupFirst _
  · have happ : runOps (ops ++ [Op.clean]) (initState b fs0) =
        clean (runOps ops (initState b fs0)) := by
      simp [runOps, List.foldl_append]
    rw [happ]
    by_cases hr : (runOps ops (initState b fs0)).rootExists
    · simp [clean, hr]
    · have hz := hmain.2 (by simpa using hr)
      have hfe : (runOps ops (initState b fs0)).files = [] := by
        rw [hmain.1, hz]
        rfl
      simp [clean, hr, hfe]

/-- C4: when `pc` occurs (once) among the platform names it is moved to
the end with the relative order of all other names preserved, and a list
without `pc` is left unchanged. -/

theorem movePcToEnd_spec (l : List String) :
    ("pc" ∈ l → l.count "pc" = 1 →
      movePcToEnd l = l.filter (fun name => ¬ name = "pc") ++ ["pc"]) ∧
    ("pc" ∉ l → movePcToEnd l = l) := by
  constructor
  · intro hmem hcount
    have hc : l.contains "pc" = true := by
      simpa using hmem
    simp only [movePcToEnd, if_pos hc]
    rw [eraseIdx_findIdx_count_one l hcount]
  · intro hmem
    have hc : l.contains "pc" = false := by
      simpa using hmem
    simp only [movePcToEnd]
    rw [if_neg (by simpa using hmem)]

theorem movePcToEnd_spec_witness :
    movePcToEnd ["android", "webos", "pc", "tizen"] = ["android", "webos", "tizen", "pc"] :=
  ((movePcToEnd_spec ["android", "webos", "pc", "tizen"]).1 (by decide) (by decide)).trans
    (by decide)

/-- C5: the inferred type tag is `Function` for callables, `null` for
null, `Array<T>` with `T` the pipe-joined de-duplicated union of element
tags (`*` for an empty array), `Object` for plain objects, and the
native `typeof` tag for every other primitive. -/

theorem getGCCType_matches_table :
    (∀ src, getGCCType (.vfun src) = "Function") ∧
    getGCCType .vnull = "null" ∧
    getGCCType (.varr []) = "Array<*>" ∧
    (∀ (v : Value) (l : List Value),
      getGCCType (.varr (v :: l)) =
        "Array<" ++ String.intercalate "|" (dedupFirst ((v :: l).map getGCCType)) ++ ">") ∧
    (∀ fields, getGCCType (.vobj fields) = "Object") ∧
    (∀ n, getGCCType (.vnum n) = "number") ∧
    (∀ s, getGCCType (.vstr s) = "string") ∧
    (∀ b, getGCCType (.vbool b) = "boolean") ∧
    getGCCType .vundefined = "undefined" := by
  refine ⟨fun src => rfl, rfl, rfl, fun v l => ?_, fun fields => rfl, fun n => rfl,
    fun s => rfl, fun b => rfl, rfl⟩
  rw [← getGCCTypeList_eq_map]
  rfl

/-- C6: for `define = \x7bFOO: 1, BAR: "x", BAZ: [1, "a", null]\x7d` the
emitted module tags `FOO` as a numeric constant with literal `1`, `BAR`
as a string constant with the quoted literal `"x"`, and `BAZ` as
`Array<number|string|null>` with array literal `[1,"a",null]`; an
empty-array define value gets element type `*` and literal `[]`. -/

theorem generateDefines_examples :
    definesContent
        [("FOO", .vnum 1), ("BAR", .vstr "x"),
          ("BAZ", .varr [.vnum 1, .vstr "a", .vnull])] =
      "/**\n * @const \x7bnumber\x7d\n */\nexport const FOO = 1;\n\n/**\n * @const \x7bstring\x7d\n */\nexport const BAR = \"x\";\n\n/**\n * @const \x7bArray<number|string|null>\x7d\n */\nexport const BAZ = [1,\"a\",null];" ∧
    definesContent [("K", .varr [])] =
      "/**\n * @const \x7bArray<*>\x7d\n */\nexport const K = [];" :=
  ⟨rfl, rfl⟩

/-- C7 counterexample: the rendered app-entry path is not the bare
path-relative-to-source-root of the claim — the project's name is
prefixed.  With project `proj`, source root `/home/src` and entry
`/home/src/main.js`, the code renders `proj/main`, not `main`. -/

theorem appEntryPath_counterexample :
    appEntryPath ⟨"proj", ["home", "src"], ["home", "src", "main.js"], []⟩ = "proj/main" ∧
    specEntryPath ⟨"proj", ["home", "src"], ["home", "src", "main.js"], []⟩ = "main" ∧
    ¬ appEntryPath ⟨"proj", ["home", "src"], ["home", "src", "main.js"], []⟩ =
        specEntryPath ⟨"proj", ["home", "src"], ["home", "src", "main.js"], []⟩ :=
  ⟨rfl, rfl, by decide⟩

/-- C7 (amended): for an entry module under the source root, the
app-entry file points at the project's name joined with the entry's path
relative to the source root, with a trailing `.js` extension stripped. -/

theorem appEntryPath_amended (name : String) (src rel : List String) (fname : String)
    (defs : List (String × Value)) :
    appEntryPath ⟨name, src, src ++ (rel ++ [fname ++ ".js"]), defs⟩ =
      joinPath ((name :: rel) ++ [fname]) := by
  show stripJsSuffix
      (joinPath (name :: pathRelative src (src ++ (rel ++ [fname ++ ".js"])))) =
    joinPath ((name :: rel) ++ [fname])
  rw [pathRelative_append]
  have hlist : name :: (rel ++ [fname ++ ".js"]) = (name :: rel) ++ [fname ++ ".js"] := rfl
  rw [hlist, joinPath_append_suffix, stripJsSuffix_append]

/-- C8: an extension's change notification writes exactly the supplied
mapping, namespaced under the extension's name: written paths all carry
the name prefix and take the mapping's content, every other path keeps
its previous content, and the registry is only appended to (no clean). -/

theorem extensionGeneratedHandler_spec (e : Extension)
    (sources : List (FsPath × String)) (s : State) :
    (∀ p : FsPath, lastWrite p (_resolveAddonRelativeSources e sources) = none →
      lookupFS p (extensionGeneratedHandler e sources s).fs = lookupFS p s.fs) ∧
    (∀ (k : FsPath) (c : String),
      lastWrite (e.name :: k) (_resolveAddonRelativeSources e sources) = some c →
      lookupFS (e.name :: k) (extensionGeneratedHandler e sources s).fs =
        some (.str c)) ∧
    (∀ p : FsPath, (lastWrite p (_resolveAddonRelativeSources e sources)).isSome = true →
      ∃ k, p = e.name :: k ∧ ∃ c, (k, c) ∈ sources) ∧
    List.IsPrefix s.files (extensionGeneratedHandler e sources s).files := by
  refine ⟨?_, ?_, ?_, ?_⟩
  · intro p hnone
    simp only [extensionGeneratedHandler]
    rw [lookupFS_writeSources, hnone]
  · intro k c hsome
    simp only [extensionGeneratedHandler]
    rw [lookupFS_writeSources, hsome]
  · intro p hp
    obtain ⟨c, hc⟩ := lastWrite_isSome_mem _ _ hp
    simp only [_resolveAddonRelativeSources, List.mem_map] at hc
    obtain ⟨kc, hkc, heq⟩ := hc
    refine ⟨kc.1, ?_, kc.2, ?_⟩
    · have := congrArg Prod.fst heq
      simpa using this.symm
    · simpa using hkc
  · exact files_writeSources_monotone _ s

theorem extensionGeneratedHandler_spec_witness :
    lookupFS ["foo", "bar.js"]
        (extensionGeneratedHandler ⟨"foo", fun _ => []⟩ [(["bar.js"], "content")]
          (initState true [])).fs =
      some (.str "content") :=
  (extensionGeneratedHandler_spec ⟨"foo", fun _ => []⟩ [(["bar.js"], "content")]
      (initState true [])).2.1 ["bar.js"] "content" (by decide)

/-- C9: `clean()` when the resolved output root does not exist is a
complete no-op — nothing is touched and nothing can throw, the call
returns with the state unchanged. -/

theorem clean_missing_root_noop (s : State) (h : s.rootExists = false) :
    clean s = s := by
  simp [clean, h]

theorem clean_missing_root_noop_witness :
    clean (initState false [(["app.js"], Content.str "x")]) =
      initState false [(["app.js"], Content.str "x")] :=
  clean_missing_root_noop (initState false [(["app.js"], Content.str "x")]) rfl

/-- C10: `generateDefines` is deterministic — the emitted `define.js`
text depends only on the define mapping, not on the ambient state, and
the union element-type string of a non-empty array is the element tags
in order of first occurrence, the same on every run. -/

theorem generateDefines_deterministic (cfg : Config) (s1 s2 : State) :
    lookupFS ["define.js"] (generateDefines cfg s1).fs =
      lookupFS ["define.js"] (generateDefines cfg s2).fs ∧
    (∀ (v : Value) (l : List Value),
      getArrayContentsType (v :: l) =
        String.intercalate "|" (firstOccurrences ((v :: l).map getGCCType))) := by
  constructor
  · simp only [generateDefines]
    rw [lookupFS_writeFile, if_pos rfl, lookupFS_writeFile, if_pos rfl]
  · intro v l
    rw [← getGCCTypeList_eq_map, ← dedupFirst_eq_firstOccurrences]
    rfl
